import Mathlib

/-!
Verification of the fsm.mod repository: a shallow embedding of the
`fsm` Go package (transition-graph construction in `stateTran.go`,
the FSM engine and formatting in `fsm.go`, the `state` type in
`state.go`, and the typed errors in `fsmError.go`), together with
theorems settling the claims about it.

Modelling conventions:
- Go `map[string]*state` becomes an association list `List (String × state)`
  with unique keys; a `*state` pointer into the graph is represented by the
  state's name (names are unique and states are created keyed by their own
  name, so the pointer stored anywhere always equals the graph entry of
  that name).
- A `state.nextState` map is represented by its key set, a duplicate-free
  `List String` (map insertion of a present key is a no-op on the key set).
- Go `error` results become `Except`/`Option` of the inductive `GoErr ε`,
  whose constructors mirror the dynamic error types the package produces:
  the three exported structs of `fsmError.go` plus the two anonymous
  `fmt.Errorf` values of `stateTran.go`.  `ε` is the type of error values
  a caller-supplied `Underlying.TransitionAllowed` may return.
- The `Underlying` hooks are modelled as pure functions of the FSM's
  observable state; every hook invocation is recorded in an event trace
  returned next to the result, so claims about which hooks run, how often
  and in which order (and what the FSM looked like at that moment) are
  statements about that trace.
-/

namespace Fsm

def InitState : String := "init"

/-- Go `state` struct (state.go): name, description, and the key set of
its `nextState` map. -/
structure state where
  name : String
  desc : String
  nextState : List String
deriving DecidableEq

/-- Go `newState` (state.go): a fresh state with empty description and no
outgoing edges. -/
def newState (name : String) : state :=
  { name := name, desc := "", nextState := [] }

/-- Go `(s state) isTerminal` (state.go): no next states. -/
def state.isTerminal (s : state) : Bool :=
  s.nextState.isEmpty

/-- Go `(s state) String` (state.go): the name, plus the description in
square brackets when it is non-empty. -/
def state.String (s : state) : String :=
  s.name ++ (if s.desc = "" then "" else " [" ++ s.desc ++ "]")

/-- Go `STPair` (stateTran.go). -/
structure STPair where
  From : String
  To : String
deriving DecidableEq

/-- Go `StateTrans` (stateTran.go): the graph name and the states map as
an association list with unique keys. -/
structure StateTrans where
  name : String
  states : List (String × state)
deriving DecidableEq

/-- Errors produced by the package.  The first three constructors are the
exported error structs of `fsmError.go` (each of which has the marker
method `FSMError()` of the `Error` interface); the last two are the
anonymous `fmt.Errorf` values returned by `add` and `SetStateDesc` in
`stateTran.go`, which carry no marker method.  `ε` is the type of error
values returned by a caller's `TransitionAllowed` hook. -/
inductive GoErr (ε : Type) where
  | UnknownState (FSMName State : String)
  | NoTransition (FSMName FromState ToState : String)
  | ForbiddenChange (FSMName FromState ToState : String) (UndError : ε)
  | errorfAdd (stName fromName toName : String)
  | errorfSetDesc (stName stateName : String)
deriving DecidableEq

/-- Go `(fe ForbiddenChange) Unwrap` (fsmError.go): only `ForbiddenChange`
has an `Unwrap` method, returning the stored underlying error. -/
def GoErr.Unwrap {ε : Type} : GoErr ε → Option ε
  | .ForbiddenChange _ _ _ e => some e
  | _ => none

/-- Whether the error's dynamic type has the `FSMError()` marker method of
the package `Error` interface (fsmError.go): true for the three exported
structs, false for the anonymous `fmt.Errorf` values. -/
def GoErr.isFSMError {ε : Type} : GoErr ε → Bool
  | .UnknownState _ _ => true
  | .NoTransition _ _ _ => true
  | .ForbiddenChange _ _ _ _ => true
  | .errorfAdd _ _ _ => false
  | .errorfSetDesc _ _ => false

/-- Lookup in the states association list (Go map read `st.states[n]`). -/
def findState : List (String × state) → String → Option state
  | [], _ => none
  | (k, s) :: rest, n => if k = n then some s else findState rest n

/-- Update the entry with the given key (Go mutation through the map's
stored pointer). -/
def updateState : List (String × state) → String → (state → state) → List (String × state)
  | [], _, _ => []
  | (k, s) :: rest, n, g =>
      if k = n then (k, g s) :: rest else (k, s) :: updateState rest n g

/-- The key set of the states map. -/
def keys (l : List (String × state)) : List String :=
  l.map Prod.fst

/-- Insertion into a `nextState` key set (Go map write: a present key is
unchanged). -/
def insertNext (toName : String) (ns : List String) : List String :=
  if toName ∈ ns then ns else ns ++ [toName]

/-- Go `(st StateTrans) HasState` (stateTran.go). -/
def StateTrans.HasState (st : StateTrans) (name : String) : Bool :=
  (findState st.states name).isSome

/-- Go `(st *StateTrans) add` (stateTran.go): fail with the `fmt.Errorf`
value when the `from` state does not exist; create the `to` state when
absent; record the edge in the `from` state's `nextState` map. -/
def StateTrans.add {ε : Type} (st : StateTrans) (fromName toName : String) :
    Except (GoErr ε) StateTrans :=
  if (findState st.states fromName).isSome then
    let states1 :=
      if (findState st.states toName).isSome then st.states
      else st.states ++ [(toName, newState toName)]
    .ok { name := st.name,
          states := updateState states1 fromName
            (fun s => { s with nextState := insertNext toName s.nextState }) }
  else
    .error (.errorfAdd st.name fromName toName)

/-- Go `(st *StateTrans) set` (stateTran.go): apply `add` to each pair in
order, stopping at the first error. -/
def StateTrans.set {ε : Type} : StateTrans → List STPair → Except (GoErr ε) StateTrans
  | st, [] => .ok st
  | st, p :: rest =>
      match StateTrans.add (ε := ε) st p.From p.To with
      | .error e => .error e
      | .ok st1 => StateTrans.set st1 rest

/-- Go `NewStateTrans` (stateTran.go): start from the graph holding only
the `init` state (description "the initial state"), then `set` the
transitions; on error return no graph. -/
def NewStateTrans (ε : Type) (name : String) (transitions : List STPair) :
    Except (GoErr ε) StateTrans :=
  StateTrans.set (ε := ε)
    { name := name,
      states := [(InitState,
        { name := InitState, desc := "the initial state", nextState := [] })] }
    transitions

/-- Go `(st StateTrans) Name` (stateTran.go). -/
def StateTrans.Name (st : StateTrans) : String :=
  st.name

/-- Go `(st StateTrans) StateCount` (stateTran.go): size of the states map. -/
def StateTrans.StateCount (st : StateTrans) : Nat :=
  st.states.length

/-- Go `(st *StateTrans) SetStateDesc` (stateTran.go): fail with the
`fmt.Errorf` value when the state does not exist, otherwise overwrite its
description. -/
def StateTrans.SetStateDesc {ε : Type} (st : StateTrans) (name desc : String) :
    Except (GoErr ε) StateTrans :=
  if (findState st.states name).isSome then
    .ok { name := st.name,
          states := updateState st.states name (fun s => { s with desc := desc }) }
  else
    .error (.errorfSetDesc st.name name)

/-- The observable state of an FSM, as a hook sees it through the `*FSM`
argument. -/
structure FSMView where
  current : String
  prior : String
deriving DecidableEq

/-- Go `Underlying` interface (fsm.go): the pre-transition veto hook,
modelled as a pure function of the FSM view and the proposed state name,
returning `some e` for a veto (a non-nil error `e`) and `none` to allow.
The side-effect-only hooks `OnTransition` and `SetFSM` have no data to
model; their invocations appear in the event trace. -/
structure Underlying (ε : Type) where
  transitionAllowed : FSMView → String → Option ε

/-- One hook invocation, recording the FSM view at the moment of the
call. -/
inductive Event (ε : Type) where
  | transitionAllowedCall (view : FSMView) (proposed : String) (result : Option ε)
  | onTransitionCall (view : FSMView)
  | setFSMCall (view : FSMView)

/-- Go `FSM` struct (fsm.go): the graph, the prior and current state
pointers (represented by state names), and the optional Underlying. -/
structure FSM (ε : Type) where
  st : StateTrans
  prior : String
  current : String
  und : Option (Underlying ε)

def FSM.view {ε : Type} (f : FSM ε) : FSMView :=
  { current := f.current, prior := f.prior }

/-- The state record the FSM's `current` pointer refers to.  Under the
package invariant `current` is always a key of the graph, so the default
is never reached through the public operations. -/
def FSM.curGoState {ε : Type} (f : FSM ε) : state :=
  (findState f.st.states f.current).getD { name := f.current, desc := "", nextState := [] }

/-- The state record the FSM's `prior` pointer refers to. -/
def FSM.priorGoState {ε : Type} (f : FSM ε) : state :=
  (findState f.st.states f.prior).getD { name := f.prior, desc := "", nextState := [] }

/-- Go `New` (fsm.go): nil for a nil `StateTrans`; otherwise both state
pointers start at the `init` state and, when an Underlying is supplied,
its `SetFSM` hook is called once with the new FSM. -/
def New {ε : Type} (st : Option StateTrans) (u : Option (Underlying ε)) :
    Option (FSM ε) × List (Event ε) :=
  match st with
  | none => (none, [])
  | some st =>
      let f : FSM ε := { st := st, prior := InitState, current := InitState, und := u }
      match u with
      | none => (some f, [])
      | some _ => (some f, [Event.setFSMCall f.view])

/-- Go `(f *FSM) Name` (fsm.go). -/
def FSM.Name {ε : Type} (f : FSM ε) : String :=
  f.st.name

/-- Go `(f *FSM) CurrentState` (fsm.go). -/
def FSM.CurrentState {ε : Type} (f : FSM ε) : String :=
  f.current

/-- Go `(f *FSM) PriorState` (fsm.go). -/
def FSM.PriorState {ε : Type} (f : FSM ε) : String :=
  f.prior

/-- Go `(f *FSM) IsInTerminalState` (fsm.go). -/
def FSM.IsInTerminalState {ε : Type} (f : FSM ε) : Bool :=
  f.curGoState.isTerminal

/-- Go `(f *FSM) IsInInitialState` (fsm.go). -/
def FSM.IsInInitialState {ε : Type} (f : FSM ε) : Bool :=
  f.current = InitState

/-- Go `(f *FSM) NextStates` (fsm.go): the names in the current state's
`nextState` map, sorted (`sort.StringSlice(...).Sort()`). -/
def FSM.NextStates {ε : Type} (f : FSM ε) : List String :=
  f.curGoState.nextState.mergeSort (fun a b => a ≤ b)

/-- Go `(f *FSM) ChangeState` (fsm.go), returning the FSM after the call,
the trace of hook invocations, and the returned error (if any).  The
error construction mirrors `mkErrUnknownState`, `mkErrNoTransition` and
`mkErrForbiddenChange` of fsmError.go (the latter two read `f.current`
before any commit). -/
def FSM.ChangeState {ε : Type} (f : FSM ε) (newStateName : String) :
    FSM ε × List (Event ε) × Option (GoErr ε) :=
  if newStateName ∈ f.curGoState.nextState then
    match f.und with
    | none =>
        let f1 : FSM ε := { f with prior := f.current, current := newStateName }
        (f1, [], none)
    | some u =>
        match u.transitionAllowed f.view newStateName with
        | some e =>
            (f, [Event.transitionAllowedCall f.view newStateName (some e)],
             some (GoErr.ForbiddenChange f.st.name f.current newStateName e))
        | none =>
            let f1 : FSM ε := { f with prior := f.current, current := newStateName }
            (f1, [Event.transitionAllowedCall f.view newStateName none,
                  Event.onTransitionCall f1.view], none)
  else if f.st.HasState newStateName then
    (f, [], some (GoErr.NoTransition f.st.name f.current newStateName))
  else
    (f, [], some (GoErr.UnknownState f.st.name newStateName))

/-- Go `(f FSM) sFormat` (fsm.go): with the `#` flag the FSM name, the
current state's `String()` (which carries the description suffix) and the
prior state's `String()`; without the flag just the current state name. -/
def FSM.sFormat {ε : Type} (f : FSM ε) (sharp : Bool) : String :=
  if sharp then
    f.Name ++ ": " ++ f.curGoState.String ++ " (was: " ++ f.priorGoState.String ++ ")"
  else
    f.curGoState.name

/-- Go `(f FSM) vFormat` (fsm.go): `State: ` and the current state name,
with the FSM name before and the prior state name after when the `#` flag
is set; state descriptions never appear. -/
def FSM.vFormat {ε : Type} (f : FSM ε) (sharp : Bool) : String :=
  (if sharp then "FSMType: " ++ f.Name ++ ": " else "")
    ++ "State: " ++ f.current
    ++ (if sharp then ": PriorState: " ++ f.prior else "")


/-- The outgoing-edge name set of the named state (empty when the name is
not in the graph). -/
def nextOf (st : StateTrans) (n : String) : List String :=
  match findState st.states n with
  | some s => s.nextState
  | none => []

/-- All state names appearing across the (from, to) pairs, in order. -/
def allNames (ts : List STPair) : List String :=
  ts.flatMap (fun q => [q.From, q.To])

/-! ### Concrete instances used by the witness theorems -/

/-- The graph `init → A` with name `g`, as built by `NewStateTrans`. -/
def wGraph : StateTrans :=
  { name := "g",
    states := [("init", { name := "init", desc := "the initial state", nextState := ["A"] }),
               ("A", { name := "A", desc := "", nextState := [] })] }

/-- The graph `init → A`, `A → B` with name `g`, as built by `NewStateTrans`. -/
def wGraph3 : StateTrans :=
  { name := "g",
    states := [("init", { name := "init", desc := "the initial state", nextState := ["A"] }),
               ("A", { name := "A", desc := "", nextState := ["B"] }),
               ("B", { name := "B", desc := "", nextState := [] })] }

/-- The graph `init → A` with the description of `A` set to `first`. -/
def wGraphD : StateTrans :=
  { name := "g",
    states := [("init", { name := "init", desc := "the initial state", nextState := ["A"] }),
               ("A", { name := "A", desc := "first", nextState := [] })] }

/-- An Underlying whose veto hook always rejects. -/
def wUndVeto : Underlying String :=
  { transitionAllowed := fun _ _ => some "no" }

/-- An Underlying whose veto hook always allows. -/
def wUndAllow : Underlying String :=
  { transitionAllowed := fun _ _ => none }

def wFsmPlain : FSM String :=
  { st := wGraph, prior := "init", current := "init", und := none }

def wFsmAtA : FSM String :=
  { st := wGraph, prior := "init", current := "A", und := none }

def wFsmVeto : FSM String :=
  { st := wGraph, prior := "init", current := "init", und := some wUndVeto }

def wFsmAllow : FSM String :=
  { st := wGraph, prior := "init", current := "init", und := some wUndAllow }

def wFsmD : FSM String :=
  { st := wGraphD, prior := "init", current := "A", und := none }

/-! ### Basic lemmas about the association-list operations -/

theorem findState_isSome_iff_mem_keys (l : List (String × state)) (n : String) :
    (findState l n).isSome = true ↔ n ∈ keys l := by
  induction l with
  | nil => simp [findState, keys]
  | cons p rest ih =>
      obtain ⟨k, s⟩ := p
      by_cases h : k = n
      · subst h; simp [findState, keys]
      · simp [findState, keys, h, ih, Ne.symm h]

theorem findState_eq_none_iff (l : List (String × state)) (n : String) :
    findState l n = none ↔ n ∉ keys l := by
  rw [← findState_isSome_iff_mem_keys]
  cases findState l n <;> simp

theorem findState_append_left {l : List (String × state)} {n : String} {s : state}
    (h : findState l n = some s) (r : List (String × state)) :
    findState (l ++ r) n = some s := by
  induction l with
  | nil => simp [findState] at h
  | cons p rest ih =>
      obtain ⟨k, s'⟩ := p
      by_cases hk : k = n
      · simp [findState, hk] at h ⊢; exact h
      · simp [findState, hk] at h ⊢; exact ih h

theorem findState_append_right {l : List (String × state)} {n : String}
    (h : findState l n = none) (r : List (String × state)) :
    findState (l ++ r) n = findState r n := by
  induction l with
  | nil => simp
  | cons p rest ih =>
      obtain ⟨k, s'⟩ := p
      by_cases hk : k = n
      · simp [findState, hk] at h
      · simp [findState, hk] at h ⊢; exact ih h

theorem keys_updateState (l : List (String × state)) (n : String) (g : state → state) :
    keys (updateState l n g) = keys l := by
  induction l with
  | nil => rfl
  | cons p rest ih =>
      obtain ⟨k, s⟩ := p
      by_cases hk : k = n
      · simp [updateState, hk, keys]
      · simp [updateState, hk, keys] at ih ⊢; exact ih

theorem findState_updateState_self (l : List (String × state)) (n : String)
    (g : state → state) :
    findState (updateState l n g) n = (findState l n).map g := by
  induction l with
  | nil => rfl
  | cons p rest ih =>
      obtain ⟨k, s⟩ := p
      by_cases hk : k = n
      · simp [updateState, findState, hk]
      · simp [updateState, findState, hk, ih]

theorem findState_updateState_ne (l : List (String × state)) {n m : String}
    (h : m ≠ n) (g : state → state) :
    findState (updateState l n g) m = findState l m := by
  induction l with
  | nil => rfl
  | cons p rest ih =>
      obtain ⟨k, s⟩ := p
      by_cases hk : k = n
      · subst hk
        simp [updateState, findState, Ne.symm h]
      · by_cases hm : k = m
        · subst hm
          simp [updateState, findState, h, hk]
        · simp [updateState, findState, hk, hm, ih]

theorem updateState_eq_self {l : List (String × state)} {n : String} {s : state}
    {g : state → state} (h : findState l n = some s) (hg : g s = s) :
    updateState l n g = l := by
  induction l with
  | nil => simp [findState] at h
  | cons p rest ih =>
      obtain ⟨k, s'⟩ := p
      by_cases hk : k = n
      · subst hk
        simp [findState] at h
        subst h
        simp [updateState, hg]
      · simp [findState, hk] at h
        simp [updateState, hk, ih h]

theorem updateState_updateState (l : List (String × state)) (n : String)
    (g h : state → state) :
    updateState (updateState l n g) n h = updateState l n (fun s => h (g s)) := by
  induction l with
  | nil => rfl
  | cons p rest ih =>
      obtain ⟨k, s⟩ := p
      by_cases hk : k = n
      · simp [updateState, hk]
      · simp [updateState, hk, ih]


/-! ### Lemmas about `add` -/

theorem add_eq_error {ε : Type} {st : StateTrans} {fr t : String}
    (h : findState st.states fr = none) :
    StateTrans.add (ε := ε) st fr t = .error (.errorfAdd st.name fr t) := by
  simp [StateTrans.add, h]

theorem add_ok_found {ε : Type} {st st' : StateTrans} {fr t : String}
    (h : StateTrans.add (ε := ε) st fr t = .ok st') :
    (findState st.states fr).isSome = true := by
  by_cases hf : (findState st.states fr).isSome
  · exact hf
  · simp [StateTrans.add, hf] at h

theorem add_ok_name {ε : Type} {st st' : StateTrans} {fr t : String}
    (h : StateTrans.add (ε := ε) st fr t = .ok st') :
    st'.name = st.name := by
  have hf := add_ok_found h
  simp only [StateTrans.add, hf, if_true] at h
  cases h
  rfl

theorem add_ok_keys {ε : Type} {st st' : StateTrans} {fr t : String}
    (h : StateTrans.add (ε := ε) st fr t = .ok st') :
    keys st'.states =
      (if (findState st.states t).isSome then keys st.states
       else keys st.states ++ [t]) := by
  have hf := add_ok_found h
  simp only [StateTrans.add, hf, if_true] at h
  cases h
  by_cases ht : (findState st.states t).isSome
  · simp [ht, keys_updateState]
  · simp only [ht, if_false]
    rw [keys_updateState]
    simp [keys]

theorem mem_keys_add {ε : Type} {st st' : StateTrans} {fr t : String}
    (h : StateTrans.add (ε := ε) st fr t = .ok st') (n : String) :
    n ∈ keys st'.states ↔ n ∈ keys st.states ∨ n = t := by
  rw [add_ok_keys h]
  by_cases ht : (findState st.states t).isSome
  · have : t ∈ keys st.states := (findState_isSome_iff_mem_keys _ _).mp ht
    simp only [ht, if_true]
    constructor
    · exact Or.inl
    · rintro (hn | rfl)
      · exact hn
      · exact this
  · simp [ht]

theorem nodup_keys_add {ε : Type} {st st' : StateTrans} {fr t : String}
    (h : StateTrans.add (ε := ε) st fr t = .ok st')
    (hd : (keys st.states).Nodup) : (keys st'.states).Nodup := by
  rw [add_ok_keys h]
  by_cases ht : (findState st.states t).isSome
  · simpa [ht]
  · have : t ∉ keys st.states := by
      intro hmem
      exact ht ((findState_isSome_iff_mem_keys _ _).mpr hmem)
    simp only [ht, if_false]
    simpa [List.nodup_append] using ⟨hd, this⟩

theorem add_ok_next_mono {ε : Type} {st st' : StateTrans} {fr t : String}
    (h : StateTrans.add (ε := ε) st fr t = .ok st')
    {x m : String} (hm : m ∈ nextOf st x) : m ∈ nextOf st' x := by
  have hf := add_ok_found h
  simp only [StateTrans.add, hf, if_true] at h
  cases h
  rcases hx : findState st.states x with _ | s
  · simp [nextOf, hx] at hm
  · simp only [nextOf, hx] at hm
    have hx1 : findState
        (if (findState st.states t).isSome then st.states
         else st.states ++ [(t, newState t)]) x = some s := by
      by_cases ht : (findState st.states t).isSome
      · simpa [ht]
      · simp only [ht, if_false]
        exact findState_append_left hx _
    by_cases hfx : x = fr
    · subst hfx
      simp only [nextOf]
      rw [findState_updateState_self]
      split
      · next s2 heq =>
          rw [hx1] at heq
          cases heq
          simp only [Option.map_some] at *
          simp only [insertNext]
          split <;> simp [hm]
      · next heq =>
          rw [hx1] at heq
          simp at heq
    · simp only [nextOf]
      rw [findState_updateState_ne _ hfx, hx1]
      exact hm

theorem add_ok_edge {ε : Type} {st st' : StateTrans} {fr t : String}
    (h : StateTrans.add (ε := ε) st fr t = .ok st') :
    t ∈ nextOf st' fr := by
  have hf := add_ok_found h
  rcases hfr : findState st.states fr with _ | s
  · rw [hfr] at hf; simp at hf
  · simp only [StateTrans.add, hf, if_true] at h
    cases h
    have hx1 : findState
        (if (findState st.states t).isSome then st.states
         else st.states ++ [(t, newState t)]) fr = some s := by
      by_cases ht : (findState st.states t).isSome
      · simpa [ht]
      · simp only [ht, if_false]
        exact findState_append_left hfr _
    simp only [nextOf]
    rw [findState_updateState_self, hx1]
    show t ∈ insertNext t s.nextState
    simp only [insertNext]
    split
    · assumption
    · exact List.mem_append_right _ (List.mem_singleton.mpr rfl)

theorem add_ok_to_mem {ε : Type} {st st' : StateTrans} {fr t : String}
    (h : StateTrans.add (ε := ε) st fr t = .ok st') :
    t ∈ keys st'.states :=
  (mem_keys_add h t).mpr (Or.inr rfl)

theorem add_noop {ε : Type} {st : StateTrans} {fr t : String} {s : state}
    (hfr : findState st.states fr = some s) (hedge : t ∈ s.nextState)
    (ht : (findState st.states t).isSome = true) :
    StateTrans.add (ε := ε) st fr t = .ok st := by
  have hf : (findState st.states fr).isSome = true := by simp [hfr]
  simp only [StateTrans.add, hf, if_true, ht]
  have hg : (fun s => { s with nextState := insertNext t s.nextState }) s = s := by
    simp [insertNext, hedge]
  rw [updateState_eq_self hfr hg]


/-! ### Lemmas about `set` and `NewStateTrans` -/

theorem set_append {ε : Type} (a b : List STPair) (st : StateTrans) :
    StateTrans.set (ε := ε) st (a ++ b) =
      match StateTrans.set (ε := ε) st a with
      | .error e => .error e
      | .ok st1 => StateTrans.set (ε := ε) st1 b := by
  induction a generalizing st with
  | nil => simp [StateTrans.set]
  | cons p rest ih =>
      simp only [List.cons_append, StateTrans.set]
      rcases h : StateTrans.add (ε := ε) st p.From p.To with e | st1
      · rfl
      · exact ih st1

theorem set_ok_name {ε : Type} {st st' : StateTrans} {ts : List STPair}
    (h : StateTrans.set (ε := ε) st ts = .ok st') : st'.name = st.name := by
  induction ts generalizing st with
  | nil =>
      simp only [StateTrans.set] at h
      cases h; rfl
  | cons p rest ih =>
      simp only [StateTrans.set] at h
      rcases ha : StateTrans.add (ε := ε) st p.From p.To with e | st1
      · rw [ha] at h; cases h
      · rw [ha] at h
        exact (ih h).trans (add_ok_name ha)

theorem set_ok_mem_keys {ε : Type} {st st' : StateTrans} {ts : List STPair}
    (h : StateTrans.set (ε := ε) st ts = .ok st') (n : String) :
    n ∈ keys st'.states ↔ n ∈ keys st.states ∨ n ∈ ts.map STPair.To := by
  induction ts generalizing st with
  | nil =>
      simp only [StateTrans.set] at h
      cases h
      simp
  | cons p rest ih =>
      simp only [StateTrans.set] at h
      rcases ha : StateTrans.add (ε := ε) st p.From p.To with e | st1
      · rw [ha] at h; cases h
      · rw [ha] at h
        rw [ih h, mem_keys_add ha]
        simp only [List.map_cons, List.mem_cons]
        tauto

theorem set_ok_nodup {ε : Type} {st st' : StateTrans} {ts : List STPair}
    (h : StateTrans.set (ε := ε) st ts = .ok st')
    (hd : (keys st.states).Nodup) : (keys st'.states).Nodup := by
  induction ts generalizing st with
  | nil =>
      simp only [StateTrans.set] at h
      cases h; exact hd
  | cons p rest ih =>
      simp only [StateTrans.set] at h
      rcases ha : StateTrans.add (ε := ε) st p.From p.To with e | st1
      · rw [ha] at h; cases h
      · rw [ha] at h
        exact ih h (nodup_keys_add ha hd)

theorem set_ok_next_mono {ε : Type} {st st' : StateTrans} {ts : List STPair}
    (h : StateTrans.set (ε := ε) st ts = .ok st')
    {x m : String} (hm : m ∈ nextOf st x) : m ∈ nextOf st' x := by
  induction ts generalizing st with
  | nil =>
      simp only [StateTrans.set] at h
      cases h; exact hm
  | cons p rest ih =>
      simp only [StateTrans.set] at h
      rcases ha : StateTrans.add (ε := ε) st p.From p.To with e | st1
      · rw [ha] at h; cases h
      · rw [ha] at h
        exact ih h (add_ok_next_mono ha hm)

theorem set_ok_froms {ε : Type} {st st' : StateTrans} {ts : List STPair}
    (h : StateTrans.set (ε := ε) st ts = .ok st') :
    ∀ p ∈ ts, p.From ∈ keys st'.states := by
  induction ts generalizing st with
  | nil => simp
  | cons q rest ih =>
      intro p hp
      simp only [StateTrans.set] at h
      rcases ha : StateTrans.add (ε := ε) st q.From q.To with e | st1
      · rw [ha] at h; cases h
      · rw [ha] at h
        rcases List.mem_cons.mp hp with rfl | hmem
        · have h0 : p.From ∈ keys st.states :=
            (findState_isSome_iff_mem_keys _ _).mp (add_ok_found ha)
          have h1 : p.From ∈ keys st1.states := (mem_keys_add ha _).mpr (Or.inl h0)
          exact (set_ok_mem_keys h p.From).mpr (Or.inl h1)
        · exact ih h p hmem

theorem set_good {ε : Type} :
    ∀ (pre : List STPair) (st : StateTrans),
      (∀ i (h : i < pre.length),
        (pre.get ⟨i, h⟩).From ∈ keys st.states ∨
        (pre.get ⟨i, h⟩).From ∈ (pre.take i).map STPair.To) →
      ∃ st', StateTrans.set (ε := ε) st pre = .ok st'
  | [], st, _ => ⟨st, rfl⟩
  | p :: rest, st, hgood => by
      have h0 := hgood 0 (by simp)
      simp only [List.get, List.take, List.map_nil, List.not_mem_nil, or_false] at h0
      have hfr : (findState st.states p.From).isSome = true :=
        (findState_isSome_iff_mem_keys _ _).mpr h0
      rcases ha : StateTrans.add (ε := ε) st p.From p.To with e | st1
      · rw [StateTrans.add] at ha
        simp [hfr] at ha
      · have hrest : ∀ i (h : i < rest.length),
            (rest.get ⟨i, h⟩).From ∈ keys st1.states ∨
            (rest.get ⟨i, h⟩).From ∈ (rest.take i).map STPair.To := by
          intro i hi
          have := hgood (i + 1) (by simpa using Nat.succ_lt_succ hi)
          simp only [List.get] at this
          rcases this with hin | hin
          · exact Or.inl ((mem_keys_add ha _).mpr (Or.inl hin))
          · simp only [List.take, List.map_cons, List.mem_cons] at hin
            rcases hin with heq | hin
            · exact Or.inl ((mem_keys_add ha _).mpr (Or.inr heq))
            · exact Or.inr hin
        obtain ⟨st', hst'⟩ := set_good rest st1 hrest
        exact ⟨st', by simp only [StateTrans.set, ha]; exact hst'⟩


/-! ### Claim theorems: the transition engine -/

/-- C1: `ChangeState(s)` classifies failures exactly: no direct edge and
`s` unknown to the graph gives `UnknownState`; no direct edge but `s`
known gives `NoTransition` naming the current state and `s`; a direct
edge with a vetoing Underlying gives `ForbiddenChange` whose `Unwrap`
returns the veto failure; and the veto hook is consulted only when the
direct edge exists. -/
theorem claim_C1 {ε : Type} (f : FSM ε) (s : String) :
    (s ∉ f.curGoState.nextState → f.st.HasState s = false →
      (f.ChangeState s).2.2 = some (GoErr.UnknownState f.st.name s)) ∧
    (s ∉ f.curGoState.nextState → f.st.HasState s = true →
      (f.ChangeState s).2.2 = some (GoErr.NoTransition f.st.name f.current s)) ∧
    (∀ u e, s ∈ f.curGoState.nextState → f.und = some u →
      u.transitionAllowed f.view s = some e →
      (f.ChangeState s).2.2 = some (GoErr.ForbiddenChange f.st.name f.current s e) ∧
      GoErr.Unwrap (GoErr.ForbiddenChange f.st.name f.current s e) = some e) ∧
    (∀ v p r, Event.transitionAllowedCall v p r ∈ (f.ChangeState s).2.1 →
      s ∈ f.curGoState.nextState) := by
  refine ⟨?_, ?_, ?_, ?_⟩
  · intro hmem hhs
    simp [FSM.ChangeState, hmem, hhs]
  · intro hmem hhs
    simp [FSM.ChangeState, hmem, hhs]
  · intro u e hmem hund hveto
    simp [FSM.ChangeState, hmem, hund, hveto, GoErr.Unwrap]
  · intro v p r hev
    by_cases hmem : s ∈ f.curGoState.nextState
    · exact hmem
    · exfalso
      by_cases hhs : f.st.HasState s <;>
        simp [FSM.ChangeState, hmem, hhs] at hev

/-- C2: whenever `ChangeState` returns an error of any kind, the FSM's
current and prior states are unchanged and the `OnTransition` hook is not
invoked. -/
theorem claim_C2 {ε : Type} (f : FSM ε) (s : String) (e : GoErr ε)
    (h : (f.ChangeState s).2.2 = some e) :
    (f.ChangeState s).1.current = f.current ∧
    (f.ChangeState s).1.prior = f.prior ∧
    ∀ v, Event.onTransitionCall (ε := ε) v ∉ (f.ChangeState s).2.1 := by
  by_cases hmem : s ∈ f.curGoState.nextState
  · rcases hund : f.und with _ | u
    · simp [FSM.ChangeState, hmem, hund] at h
    · rcases hveto : u.transitionAllowed f.view s with _ | e'
      · simp [FSM.ChangeState, hmem, hund, hveto] at h
      · simp [FSM.ChangeState, hmem, hund, hveto]
  · by_cases hhs : f.st.HasState s <;>
      simp [FSM.ChangeState, hmem, hhs]

/-- C3: when a direct edge to `s` exists and there is no Underlying or
its veto hook allows the change, `ChangeState(s)` succeeds, sets `prior`
to the old current state and `current` to `s`, and invokes `OnTransition`
exactly once, after the commit (its recorded view is the post-commit
state), only when an Underlying is bound. -/
theorem claim_C3 {ε : Type} (f : FSM ε) (s : String)
    (hmem : s ∈ f.curGoState.nextState)
    (hallow : f.und = none ∨ ∃ u, f.und = some u ∧ u.transitionAllowed f.view s = none) :
    (f.ChangeState s).2.2 = none ∧
    (f.ChangeState s).1.prior = f.current ∧
    (f.ChangeState s).1.current = s ∧
    (f.und = none → (f.ChangeState s).2.1 = []) ∧
    (∀ u, f.und = some u →
      (f.ChangeState s).2.1 =
        [Event.transitionAllowedCall f.view s none,
         Event.onTransitionCall { current := s, prior := f.current }]) := by
  rcases hallow with hund | ⟨u, hund, hveto⟩
  · simp [FSM.ChangeState, hmem, hund]
  · simp only [FSM.view] at hveto
    simp [FSM.ChangeState, hmem, hund, hveto, FSM.view]

/-- C5: for any non-nil `StateTrans`, `New` returns an FSM whose current
and prior states are both the `init` state (so it is in the initial
state), calling `SetFSM` exactly once iff an Underlying was supplied; for
a nil `StateTrans` it returns nil and calls no hook. -/
theorem claim_C5 {ε : Type} (st : StateTrans) (u : Option (Underlying ε)) :
    (∃ f : FSM ε,
      New (some st) u =
        (some f,
         if u.isSome then
           [Event.setFSMCall { current := InitState, prior := InitState }]
         else []) ∧
      f.CurrentState = InitState ∧ f.PriorState = InitState ∧
      f.CurrentState = f.PriorState ∧ f.IsInInitialState = true ∧
      f.st = st ∧ f.und = u) ∧
    New (none : Option StateTrans) u = (none, []) := by
  constructor
  · refine ⟨{ st := st, prior := InitState, current := InitState, und := u }, ?_, rfl, rfl, rfl, ?_, rfl, rfl⟩
    · rcases u with _ | u0 <;> simp [New, FSM.view]
    · simp [FSM.IsInInitialState]
  · simp [New]


/-- C7: `NextStates` returns the names directly reachable from the
current state in lexicographically sorted order, and the list is empty
exactly when the FSM is in a terminal state. -/
theorem claim_C7 {ε : Type} (f : FSM ε) :
    List.Pairwise (fun a b : String => a ≤ b) f.NextStates ∧
    (∀ n, n ∈ f.NextStates ↔ n ∈ f.curGoState.nextState) ∧
    (f.NextStates = [] ↔ f.IsInTerminalState = true) := by
  have hperm := List.mergeSort_perm f.curGoState.nextState (fun a b => a ≤ b)
  refine ⟨?_, ?_, ?_⟩
  · have h := @List.sorted_mergeSort String
      (fun a b : String => decide (a ≤ b))
      (fun a b c hab hbc => by
        simp only [decide_eq_true_eq] at *
        exact le_trans hab hbc)
      (fun a b => by
        simp only [Bool.or_eq_true, decide_eq_true_eq]
        exact le_total a b)
      f.curGoState.nextState
    exact h.imp (fun hab => by simpa using hab)
  · intro n
    exact hperm.mem_iff
  · rw [FSM.IsInTerminalState, state.isTerminal, List.isEmpty_iff]
    constructor
    · intro h
      rw [FSM.NextStates] at h
      rw [h] at hperm
      exact List.Perm.eq_nil hperm.symm
    · intro h
      rw [FSM.NextStates, h]
      rw [h] at hperm
      exact List.Perm.eq_nil hperm


/-- C4: if some edge's `from` name is neither `init` nor introduced (as
an earlier edge's destination) before that edge, construction fails at
the first such edge, returning no graph together with the error for that
edge. -/
theorem claim_C4 {ε : Type} (name : String) (pre : List STPair) (p : STPair)
    (post : List STPair)
    (hgood : ∀ i (h : i < pre.length),
      (pre.get ⟨i, h⟩).From = InitState ∨
      (pre.get ⟨i, h⟩).From ∈ (pre.take i).map STPair.To)
    (hb1 : p.From ≠ InitState) (hb2 : p.From ∉ pre.map STPair.To) :
    NewStateTrans ε name (pre ++ p :: post) =
      .error (GoErr.errorfAdd name p.From p.To) := by
  rw [NewStateTrans]
  set st0 : StateTrans :=
    { name := name,
      states := [(InitState,
        { name := InitState, desc := "the initial state", nextState := [] })] } with hst0
  have hkeys0 : keys st0.states = [InitState] := rfl
  obtain ⟨st', hok⟩ := set_good (ε := ε) pre st0 (by
    intro i h
    rcases hgood i h with hinit | hmem
    · left
      rw [hkeys0, hinit]
      exact List.mem_singleton.mpr rfl
    · exact Or.inr hmem)
  have hnotmem : p.From ∉ keys st'.states := by
    intro hmem
    rcases (set_ok_mem_keys hok p.From).mp hmem with h1 | h1
    · rw [hkeys0] at h1
      exact hb1 (List.mem_singleton.mp h1)
    · exact hb2 h1
  have hnone : findState st'.states p.From = none :=
    (findState_eq_none_iff _ _).mpr hnotmem
  have hname : st'.name = name := (set_ok_name hok).trans rfl
  rw [set_append]
  rw [hok]
  show StateTrans.set st' (p :: post) = _
  rw [StateTrans.set]
  rw [add_eq_error hnone, hname]


theorem mem_allNames {ts : List STPair} {n : String} :
    n ∈ allNames ts ↔ ∃ q ∈ ts, n = q.From ∨ n = q.To := by
  simp [allNames, List.mem_flatMap]

/-- C6: a successfully constructed graph contains the `init` state — even
with zero supplied edges — and its state count equals the number of
distinct names across all pairs, plus one for `init` when `init` is not
among them. -/
theorem claim_C6 {ε : Type} (name : String) (ts : List STPair) (st : StateTrans)
    (h : NewStateTrans ε name ts = .ok st) :
    st.HasState InitState = true ∧
    st.StateCount =
      (allNames ts).dedup.length + (if InitState ∈ allNames ts then 0 else 1) := by
  rw [NewStateTrans] at h
  have hkeys0 : keys ([(InitState,
      { name := InitState, desc := "the initial state", nextState := [] })] :
      List (String × state)) = [InitState] := rfl
  have hmemkeys : ∀ n, n ∈ keys st.states ↔ n = InitState ∨ n ∈ ts.map STPair.To := by
    intro n
    rw [set_ok_mem_keys h n]
    simp [hkeys0]
  have hinit : InitState ∈ keys st.states := (hmemkeys InitState).mpr (Or.inl rfl)
  constructor
  · rw [StateTrans.HasState]
    exact (findState_isSome_iff_mem_keys _ _).mpr hinit
  · have hnodup : (keys st.states).Nodup := set_ok_nodup h (by simp [hkeys0])
    have hsetEq : (keys st.states).toFinset = insert InitState (allNames ts).toFinset := by
      ext n
      simp only [List.mem_toFinset, Finset.mem_insert]
      constructor
      · intro hn
        rcases (hmemkeys n).mp hn with rfl | hn
        · exact Or.inl rfl
        · rcases List.mem_map.mp hn with ⟨q, hq, rfl⟩
          exact Or.inr (mem_allNames.mpr ⟨q, hq, Or.inr rfl⟩)
      · rintro (rfl | hn)
        · exact hinit
        · rcases mem_allNames.mp hn with ⟨q, hq, rfl | rfl⟩
          · exact set_ok_froms h q hq
          · exact (hmemkeys q.To).mpr (Or.inr (List.mem_map_of_mem _ hq))
    have hcount : st.StateCount = (keys st.states).length := by
      rw [StateTrans.StateCount, keys, List.length_map]
    rw [hcount, ← List.toFinset_card_of_nodup hnodup, hsetEq]
    by_cases hmem : InitState ∈ allNames ts
    · rw [Finset.insert_eq_self.mpr (List.mem_toFinset.mpr hmem)]
      rw [List.card_toFinset]
      simp [hmem]
    · rw [Finset.card_insert_of_not_mem (by simp [hmem])]
      rw [List.card_toFinset]
      simp [hmem]


theorem set_append_ok {ε : Type} {st st1 : StateTrans} {a : List STPair}
    (h : StateTrans.set (ε := ε) st a = .ok st1) (b : List STPair) :
    StateTrans.set (ε := ε) st (a ++ b) = StateTrans.set st1 b := by
  rw [set_append, h]

theorem set_append_error {ε : Type} {st : StateTrans} {a : List STPair} {e : GoErr ε}
    (h : StateTrans.set (ε := ε) st a = .error e) (b : List STPair) :
    StateTrans.set (ε := ε) st (a ++ b) = .error e := by
  rw [set_append, h]

theorem set_cons_ok {ε : Type} {st st1 : StateTrans} {p : STPair}
    (h : StateTrans.add (ε := ε) st p.From p.To = .ok st1) (ts : List STPair) :
    StateTrans.set (ε := ε) st (p :: ts) = StateTrans.set st1 ts := by
  simp only [StateTrans.set, h]

theorem set_cons_error {ε : Type} {st : StateTrans} {p : STPair} {e : GoErr ε}
    (h : StateTrans.add (ε := ε) st p.From p.To = .error e) (ts : List STPair) :
    StateTrans.set (ε := ε) st (p :: ts) = .error e := by
  simp only [StateTrans.set, h]

/-- C8: adding the same `(from, to)` pair a second time is a no-op: the
construction with the pair twice returns exactly the same result as the
construction with it once (in particular the duplicate is not an error),
so `NextStates` for an FSM at the `from` state is the same under both. -/
theorem claim_C8 {ε : Type} (name : String) (ts1 ts2 ts3 : List STPair) (p : STPair) :
    NewStateTrans ε name (ts1 ++ [p] ++ ts2 ++ [p] ++ ts3) =
      NewStateTrans ε name (ts1 ++ [p] ++ ts2 ++ ts3) ∧
    (∀ st st', NewStateTrans ε name (ts1 ++ [p] ++ ts2 ++ [p] ++ ts3) = .ok st →
      NewStateTrans ε name (ts1 ++ [p] ++ ts2 ++ ts3) = .ok st' →
      FSM.NextStates ({ st := st, prior := InitState, current := p.From, und := none } : FSM ε) =
        FSM.NextStates ({ st := st', prior := InitState, current := p.From, und := none } : FSM ε)) := by
  have main : NewStateTrans ε name (ts1 ++ [p] ++ ts2 ++ [p] ++ ts3) =
      NewStateTrans ε name (ts1 ++ [p] ++ ts2 ++ ts3) := by
    rw [NewStateTrans, NewStateTrans]
    set st0 : StateTrans :=
      { name := name,
        states := [(InitState,
          { name := InitState, desc := "the initial state", nextState := [] })] } with hst0
    have hshape1 : ts1 ++ [p] ++ ts2 ++ [p] ++ ts3 = ts1 ++ (p :: (ts2 ++ (p :: ts3))) := by
      simp
    have hshape2 : ts1 ++ [p] ++ ts2 ++ ts3 = ts1 ++ (p :: (ts2 ++ ts3)) := by
      simp
    rw [hshape1, hshape2]
    rcases h1 : StateTrans.set (ε := ε) st0 ts1 with e | stj
    · rw [set_append_error h1, set_append_error h1]
    · rw [set_append_ok h1, set_append_ok h1]
      rcases ha : StateTrans.add (ε := ε) stj p.From p.To with e | stk
      · rw [set_cons_error ha, set_cons_error ha]
      · rw [set_cons_ok ha, set_cons_ok ha]
        rcases hm : StateTrans.set (ε := ε) stk ts2 with e | stm
        · rw [set_append_error hm, set_append_error hm]
        · rw [set_append_ok hm, set_append_ok hm]
          -- the edge `p` is already present in `stm`, so the second add is a no-op
          have hedge : p.To ∈ nextOf stm p.From := set_ok_next_mono hm (add_ok_edge ha)
          have htomem : p.To ∈ keys stm.states :=
            (set_ok_mem_keys hm p.To).mpr (Or.inl (add_ok_to_mem ha))
          have hfrommem : p.From ∈ keys stm.states := by
            refine (set_ok_mem_keys hm p.From).mpr (Or.inl ?_)
            exact (mem_keys_add ha p.From).mpr
              (Or.inl ((findState_isSome_iff_mem_keys _ _).mp (add_ok_found ha)))
          rcases hfs : findState stm.states p.From with _ | s
          · exact absurd ((findState_eq_none_iff _ _).mp hfs) (by simp [hfrommem])
          · have hedge' : p.To ∈ s.nextState := by
              rw [nextOf, hfs] at hedge
              exact hedge
            have ht : (findState stm.states p.To).isSome = true :=
              (findState_isSome_iff_mem_keys _ _).mpr htomem
            rw [set_cons_ok (add_noop hfs hedge' ht)]
  refine ⟨main, ?_⟩
  intro st st' h1 h2
  rw [main] at h1
  rw [h1] at h2
  cases h2
  rfl


/-- C9 counterexample: on a graph without the state `missing`,
`SetStateDesc` returns the anonymous `fmt.Errorf` value, which does not
carry the `FSMError()` marker of the package `Error` interface and is not
the typed `UnknownState` error, contrary to the claim. -/
theorem claim_C9_counterexample :
    NewStateTrans String "g" [] =
      .ok { name := "g",
            states := [("init",
              { name := "init", desc := "the initial state", nextState := [] })] } ∧
    StateTrans.SetStateDesc (ε := String)
        { name := "g",
          states := [("init",
            { name := "init", desc := "the initial state", nextState := [] })] }
        "missing" "d" =
      .error (GoErr.errorfSetDesc "g" "missing") ∧
    GoErr.isFSMError (GoErr.errorfSetDesc "g" "missing" : GoErr String) = false :=
  ⟨rfl, rfl, rfl⟩

/-- C9 (amended): `SetStateDesc(name, text)` returns an error iff `name`
is not a state of the graph, but that error is the anonymous `fmt.Errorf`
value naming the graph and the state — not the package's typed
`UnknownState` error kind; when the name exists it overwrites the
description (touching nothing else) and may be repeated, with the same
effect as the last call. -/
theorem claim_C9_amended {ε : Type} (st : StateTrans) (n d : String) :
    (st.HasState n = false →
      StateTrans.SetStateDesc (ε := ε) st n d = .error (GoErr.errorfSetDesc st.name n) ∧
      GoErr.isFSMError (GoErr.errorfSetDesc st.name n : GoErr ε) = false) ∧
    (st.HasState n = true →
      ∃ st', StateTrans.SetStateDesc (ε := ε) st n d = .ok st' ∧
        st'.name = st.name ∧
        (∃ s, findState st.states n = some s ∧
          findState st'.states n = some { s with desc := d }) ∧
        (∀ m, m ≠ n → findState st'.states m = findState st.states m) ∧
        (∀ d2, StateTrans.SetStateDesc (ε := ε) st' n d2 =
          StateTrans.SetStateDesc (ε := ε) st n d2)) := by
  constructor
  · intro h
    rw [StateTrans.HasState] at h
    constructor
    · rw [StateTrans.SetStateDesc, h]
      simp
    · rfl
  · intro h
    rw [StateTrans.HasState] at h
    rcases hfs : findState st.states n with _ | s
    · rw [hfs] at h; simp at h
    · have hst2 : ∃ st2 : StateTrans, st2 =
          { name := st.name,
            states := updateState st.states n (fun s => { s with desc := d }) } :=
        ⟨_, rfl⟩
      obtain ⟨st2, hst2⟩ := hst2
      refine ⟨st2, ?_, ?_, ⟨s, rfl, ?_⟩, ?_, ?_⟩
      · rw [hst2]
        simp [StateTrans.SetStateDesc, h]
      · rw [hst2]
      · rw [hst2]
        show findState (updateState st.states n _) n = _
        rw [findState_updateState_self, hfs]
        rfl
      · intro m hm
        rw [hst2]
        exact findState_updateState_ne _ hm _
      · intro d2
        rw [hst2]
        have h2 : (findState
            (updateState st.states n (fun s => { s with desc := d })) n).isSome = true := by
          rw [findState_updateState_self, hfs]
          rfl
        simp only [StateTrans.SetStateDesc, h, h2, if_true]
        rw [updateState_updateState]

/-- C10 counterexample: for an FSM at state `A` carrying description
`first`, the compact `%s` rendering is the bare name `A` — it does not
carry the description suffix — and the `%v` renderings never show
descriptions; only the labeled `%#s` rendering does. -/
theorem claim_C10_counterexample :
    NewStateTrans String "g" [{ From := "init", To := "A" }] =
      .ok { name := "g",
            states := [("init",
              { name := "init", desc := "the initial state", nextState := ["A"] }),
              ("A", { name := "A", desc := "", nextState := [] })] } ∧
    StateTrans.SetStateDesc (ε := String)
        { name := "g",
          states := [("init",
            { name := "init", desc := "the initial state", nextState := ["A"] }),
            ("A", { name := "A", desc := "", nextState := [] })] } "A" "first" =
      .ok { name := "g",
            states := [("init",
              { name := "init", desc := "the initial state", nextState := ["A"] }),
              ("A", { name := "A", desc := "first", nextState := [] })] } ∧
    FSM.curGoState
      ({ st := { name := "g",
                 states := [("init",
                   { name := "init", desc := "the initial state", nextState := ["A"] }),
                   ("A", { name := "A", desc := "first", nextState := [] })] },
         prior := "init", current := "A", und := none } : FSM String) =
      { name := "A", desc := "first", nextState := [] } ∧
    FSM.sFormat
      ({ st := { name := "g",
                 states := [("init",
                   { name := "init", desc := "the initial state", nextState := ["A"] }),
                   ("A", { name := "A", desc := "first", nextState := [] })] },
         prior := "init", current := "A", und := none } : FSM String) false = "A" ∧
    "A" ≠ "A [first]" ∧
    FSM.vFormat
      ({ st := { name := "g",
                 states := [("init",
                   { name := "init", desc := "the initial state", nextState := ["A"] }),
                   ("A", { name := "A", desc := "first", nextState := [] })] },
         prior := "init", current := "A", und := none } : FSM String) false = "State: A" ∧
    FSM.vFormat
      ({ st := { name := "g",
                 states := [("init",
                   { name := "init", desc := "the initial state", nextState := ["A"] }),
                   ("A", { name := "A", desc := "first", nextState := [] })] },
         prior := "init", current := "A", und := none } : FSM String) true =
      "FSMType: g: State: A: PriorState: init" :=
  ⟨rfl, rfl, rfl, rfl, by decide, rfl, rfl⟩

/-- C10 (amended): only the labeled `%s` rendering (the `#` flag) includes
the description suffix `" [<description>]"` after the state name; the
compact rendering is the bare state name, and the `%v` renderings never
include descriptions. -/
theorem claim_C10_amended {ε : Type} (f : FSM ε) (d : String)
    (hd : f.curGoState.desc = d) (hne : d ≠ "") :
    f.sFormat true =
      f.Name ++ ": " ++ (f.curGoState.name ++ " [" ++ d ++ "]") ++ " (was: " ++
        f.priorGoState.String ++ ")" ∧
    f.sFormat false = f.curGoState.name ∧
    f.vFormat false = "State: " ++ f.current ∧
    f.vFormat true =
      "FSMType: " ++ f.Name ++ ": " ++ "State: " ++ f.current ++
        ": PriorState: " ++ f.prior := by
  refine ⟨?_, rfl, ?_, ?_⟩
  · rw [FSM.sFormat, if_pos rfl, state.String, hd, if_neg hne]
    simp [String.append_assoc]
  · rw [FSM.vFormat]
    simp
  · rw [FSM.vFormat]
    simp [String.append_assoc]


/-- Witness for C1 at concrete inputs covering all three error kinds. -/
theorem claim_C1_witness :
    (wFsmPlain.ChangeState "B").2.2 = some (GoErr.UnknownState "g" "B") ∧
    (wFsmAtA.ChangeState "init").2.2 = some (GoErr.NoTransition "g" "A" "init") ∧
    (wFsmVeto.ChangeState "A").2.2 = some (GoErr.ForbiddenChange "g" "init" "A" "no") ∧
    GoErr.Unwrap (GoErr.ForbiddenChange "g" "init" "A" "no") = some "no" := by
  refine ⟨?_, ?_, ?_, ?_⟩
  · exact (claim_C1 wFsmPlain "B").1 (by decide) (by decide)
  · exact (claim_C1 wFsmAtA "init").2.1 (by decide) (by decide)
  · exact ((claim_C1 wFsmVeto "A").2.2.1 wUndVeto "no" (by decide) rfl rfl).1
  · exact ((claim_C1 wFsmVeto "A").2.2.1 wUndVeto "no" (by decide) rfl rfl).2

/-- Witness for C2 at a concrete failing transition. -/
theorem claim_C2_witness :
    (wFsmPlain.ChangeState "B").2.2 = some (GoErr.UnknownState "g" "B") ∧
    (wFsmPlain.ChangeState "B").1.current = "init" ∧
    (wFsmPlain.ChangeState "B").1.prior = "init" ∧
    Event.onTransitionCall (ε := String) { current := "A", prior := "init" } ∉
      (wFsmPlain.ChangeState "B").2.1 := by
  have h : (wFsmPlain.ChangeState "B").2.2 = some (GoErr.UnknownState "g" "B") := rfl
  have hc := claim_C2 wFsmPlain "B" _ h
  exact ⟨h, hc.1, hc.2.1, hc.2.2 _⟩

/-- Witness for C3 at a concrete allowed transition with a bound
Underlying. -/
theorem claim_C3_witness :
    "A" ∈ wFsmAllow.curGoState.nextState ∧
    (wFsmAllow.ChangeState "A").2.2 = none ∧
    (wFsmAllow.ChangeState "A").1.prior = "init" ∧
    (wFsmAllow.ChangeState "A").1.current = "A" ∧
    (wFsmAllow.ChangeState "A").2.1 =
      [Event.transitionAllowedCall { current := "init", prior := "init" } "A" none,
       Event.onTransitionCall { current := "A", prior := "init" }] := by
  have hmem : "A" ∈ wFsmAllow.curGoState.nextState := by decide
  have hc := claim_C3 wFsmAllow "A" hmem (Or.inr ⟨wUndAllow, rfl, rfl⟩)
  exact ⟨hmem, hc.1, hc.2.1, hc.2.2.1, hc.2.2.2.2 wUndAllow rfl⟩

/-- Witness for C4 at a concrete edge list whose first edge has an
unknown source. -/
theorem claim_C4_witness :
    NewStateTrans String "g"
        ([] ++ { From := "X", To := "B" } :: [{ From := "init", To := "A" }]) =
      .error (GoErr.errorfAdd "g" "X" "B") :=
  claim_C4 "g" [] { From := "X", To := "B" } [{ From := "init", To := "A" }]
    (fun _ h => absurd h (by simp)) (by decide) (by simp)

/-- Witness for C6 at a concrete successful construction. -/
theorem claim_C6_witness :
    NewStateTrans String "g" [{ From := "init", To := "A" }, { From := "A", To := "B" }] =
      .ok wGraph3 ∧
    wGraph3.HasState InitState = true ∧
    wGraph3.StateCount =
      (allNames [{ From := "init", To := "A" }, { From := "A", To := "B" }]).dedup.length +
        (if InitState ∈ allNames [{ From := "init", To := "A" }, { From := "A", To := "B" }]
         then 0 else 1) := by
  have h : NewStateTrans String "g"
      [{ From := "init", To := "A" }, { From := "A", To := "B" }] = .ok wGraph3 := rfl
  have hc := claim_C6 "g" _ wGraph3 h
  exact ⟨h, hc.1, hc.2⟩

/-- Witness for C8 at a concrete duplicated edge. -/
theorem claim_C8_witness :
    NewStateTrans String "g"
        ([] ++ [{ From := "init", To := "A" }] ++ [] ++ [{ From := "init", To := "A" }] ++ []) =
      .ok wGraph ∧
    NewStateTrans String "g" ([] ++ [{ From := "init", To := "A" }] ++ [] ++ []) = .ok wGraph ∧
    FSM.NextStates ({ st := wGraph, prior := InitState, current := "init", und := none } : FSM String) =
      FSM.NextStates ({ st := wGraph, prior := InitState, current := "init", und := none } : FSM String) := by
  refine ⟨rfl, rfl, ?_⟩
  exact (claim_C8 (ε := String) "g" [] [] [] { From := "init", To := "A" }).2 wGraph wGraph rfl rfl

/-- Witness for C9 (amended) at a concrete graph and missing state. -/
theorem claim_C9_amended_witness :
    wGraph.HasState "missing" = false ∧
    StateTrans.SetStateDesc (ε := String) wGraph "missing" "d" =
      .error (GoErr.errorfSetDesc "g" "missing") ∧
    GoErr.isFSMError (GoErr.errorfSetDesc "g" "missing" : GoErr String) = false := by
  have h : wGraph.HasState "missing" = false := by decide
  have hc := (claim_C9_amended (ε := String) wGraph "missing" "d").1 h
  exact ⟨h, hc.1, hc.2⟩

/-- Witness for C10 (amended) at a concrete FSM with a described state. -/
theorem claim_C10_amended_witness :
    wFsmD.curGoState.desc = "first" ∧ "first" ≠ "" ∧
    wFsmD.sFormat true = "g: A [first] (was: init [the initial state])" ∧
    wFsmD.sFormat false = "A" := by
  have hd : wFsmD.curGoState.desc = "first" := rfl
  have hne : "first" ≠ "" := by decide
  have hc := claim_C10_amended wFsmD "first" hd hne
  refine ⟨hd, hne, ?_, hc.2.1⟩
  rw [hc.1]
  rfl

end Fsm
